import Mathlib

/-!
# Verification of the selfapi resource-tree and self-test engine

Shallow embedding of `selfapi.js` (the self-documenting / self-testing API
library). JavaScript objects used as string-keyed maps are modelled as
association lists with JS semantics (updating an existing key keeps its
position, a new key is appended); `null`/`undefined` become `Option`;
opaque handler callables become `Nat` identifiers.

The embedding covers:
* the path normalizer `normalizePath` (built on Node's `path.posix.join` /
  `path.posix.normalize`, modelled here as pure string algebra on `List Char`,
  which is exactly what those library functions compute for POSIX paths);
* the resource-node tree with `addHandler` and the handler-export protocol
  (`exportHandler` / `exportAllHandlers`);
* a heap-level model of the same tree (nodes addressed by identifiers, with
  mutable parent links), needed for properties about object aliasing such as
  re-assigning a node's parent while an old parent still references it;
* the host-adapter capability probe `isServerApp` and the registration
  closure produced by `getHandlerExporter`;
* the example test runner `testHandlerExample` and the orchestrator
  (`exportAllTests` plus the `runNextTest` loop of `test`).
-/

set_option autoImplicit false

namespace Selfapi

/-! ## Association lists with JavaScript object semantics -/

/-- Look up the value stored for key `k` (first occurrence), as `obj[k]`. -/
def getKey {κ α : Type} [DecidableEq κ] : List (κ × α) → κ → Option α
  | [], _ => none
  | (k', v) :: rest, k => if k' = k then some v else getKey rest k

/-- Store `v` under `k`, as `obj[k] = v`: an existing key keeps its position,
a new key is appended at the end (JS property insertion order). -/
def setKey {κ α : Type} [DecidableEq κ] : List (κ × α) → κ → α → List (κ × α)
  | [], k, v => [(k, v)]
  | (k', v') :: rest, k, v =>
    if k' = k then (k, v) :: rest else (k', v') :: setKey rest k v

/-! ## The path normalizer

`normalizePath(path, basePath)` in the source is
`nodepath.join(basePath || '/', path || '')` followed by
`nodepath.normalize(...)`, returning `null` when the result is exactly `'/'`.
We model Node's `path.posix` string algebra directly: a path is split at
`'/'`, segments `''` and `'.'` are dropped, `'..'` pops a segment (for an
absolute path a `'..'` above the root is dropped; for a relative path it
accumulates), segments are re-joined with `'/'`, and a leading slash
(absolute) and trailing slash are re-attached. -/

/-- Split a character list at every `'/'` (boundary pieces are empty lists). -/
def splitOnSlash : List Char → List (List Char)
  | [] => [[]]
  | c :: cs =>
    if c = '/' then [] :: splitOnSlash cs
    else
      match splitOnSlash cs with
      | [] => [[c]]
      | s :: rest => (c :: s) :: rest

/-- Re-join segments with `'/'` separators. -/
def joinSegs : List (List Char) → List Char
  | [] => []
  | [s] => s
  | s :: s' :: rest => s ++ '/' :: joinSegs (s' :: rest)

/-- One step of Node's `normalizeString` segment scan. The accumulator `st`
is the stack of kept segments, most recent first. Empty and `'.'` segments
are skipped; `'..'` pops the latest real segment, accumulates when the path
is relative (`allowAbove`), and is dropped at the root of an absolute path. -/
def stepSeg (allowAbove : Bool) (st : List (List Char)) (seg : List Char) : List (List Char) :=
  if seg = [] ∨ seg = ['.'] then st
  else if seg = ['.', '.'] then
    match st with
    | [] => if allowAbove then [['.', '.']] else []
    | top :: rest =>
      if top = ['.', '.'] then (if allowAbove then ['.', '.'] :: st else st) else rest
  else seg :: st

/-- Node's `normalizeString`: scan the segments and re-join the kept ones. -/
def normalizeString (l : List Char) (allowAbove : Bool) : List Char :=
  joinSegs (((splitOnSlash l).foldl (stepSeg allowAbove) []).reverse)

/-- Node's `path.posix.normalize`. -/
def posixNormalize (s : String) : String :=
  if s.data = [] then "."
  else
    let isAbs : Bool := s.data.head? == some '/'
    let trail : Bool := s.data.getLast? == some '/'
    let res := normalizeString s.data (!isAbs)
    if res = [] then
      if isAbs then "/" else if trail then String.mk ['.', '/'] else "."
    else
      String.mk ((if isAbs then ['/'] else []) ++ res ++ (if trail then ['/'] else []))

/-- Node's `path.posix.join` restricted to two arguments: skip empty
arguments, join the rest with `'/'`, normalize; `'.'` when nothing is left. -/
def pathJoin (a b : String) : String :=
  let joined : Option String :=
    if a = "" then (if b = "" then none else some b)
    else if b = "" then some a
    else some (a ++ "/" ++ b)
  match joined with
  | none => "."
  | some j => posixNormalize j

/-- `normalizePath` from `selfapi.js`:
`join(basePath || '/', path || '')`, normalized, `null` when the result is
the bare root `'/'`. `none` stands for JS `null`/`undefined`, and the empty
string is falsy exactly as in JS. -/
def normalizePath (path basePath : Option String) : Option String :=
  let b := match basePath with
    | none => "/"
    | some s => if s = "" then "/" else s
  let p := match path with
    | none => ""
    | some s => s
  let joined := pathJoin b p
  let normalized := posixNormalize joined
  if normalized = "/" then none else some normalized

/-! ### The segment scan on good segments -/

/-- A canonical path segment: nonempty, not `'.'` or `'..'`, slash-free. -/
def goodSeg (s : List Char) : Prop :=
  s ≠ [] ∧ s ≠ ['.'] ∧ s ≠ ['.', '.'] ∧ '/' ∉ s

/-! ### Canonical absolute paths and the fixpoint lemmas -/

/-- The shape of every non-root output of `posixNormalize` on an absolute
input: a leading slash, then `'/'`-joined good segments, then an optional
trailing slash. -/
def CanonAbs (s : String) : Prop :=
  ∃ segs T, segs ≠ [] ∧ (∀ t ∈ segs, goodSeg t) ∧ (T = [] ∨ T = ['/']) ∧
    s.data = '/' :: (joinSegs segs ++ T)

/-! ## Request/response examples and resource nodes

Handler callables are opaque to the core (they are only registered, never
invoked), so they are modelled by `Nat` identifiers. A literal-or-function
JS expectation becomes a two-constructor inductive. -/

/-- `response.status` of an example: a literal integer or a predicate. -/
inductive StatusExp where
  | num (n : Int)
  | fn (p : Int → Bool)

/-- One expected response header: a literal string or a predicate (which in
the JS code receives the looked-up actual value). -/
inductive HeaderExp where
  | str (v : String)
  | fn (p : Option String → Bool)

/-- `example.request`. -/
structure ExampleRequest where
  urlParameters : List (String × String) := []
  queryParameters : Option (List (String × String)) := none
  headers : Option (List (String × String)) := none
  body : Option String := none

/-- `example.response`. `body = none` models the absence of the `body` key
(`'body' in exampleResponse` is false). -/
structure ExampleResponse where
  status : Option StatusExp := none
  headers : Option (List (String × HeaderExp)) := none
  body : Option String := none

/-- One request/response example. -/
structure Example where
  request : Option ExampleRequest := none
  response : Option ExampleResponse := none

/-- A `beforeEachTest`/`afterEachTest` slot, modelled by its observable
behaviour: absent (the default pass-through is used), a function that calls
its continuation with the given error value, or a non-callable value. -/
inductive HookVal where
  | absent
  | fn (err : Option String)
  | notFn

/-- The `parameters` object of a handler registration. -/
structure HandlerParams where
  title : Option String := none
  handler : Nat := 0
  examples : List Example := []

/-- An API resource node: own path, own handlers by method, children by
relative path, and the two test hooks. The parent link is kept outside the
node (the callers below thread it), matching the tree-shaped states these
theorems quantify over; aliased parent links are covered by the heap model
further down. -/
inductive ApiNode where
  | mk (path : Option String) (handlers : List (String × HandlerParams))
      (children : List (String × ApiNode)) (before after : HookVal)

def ApiNode.path : ApiNode → Option String
  | .mk p _ _ _ _ => p

def ApiNode.handlers : ApiNode → List (String × HandlerParams)
  | .mk _ hs _ _ _ => hs

def ApiNode.children : ApiNode → List (String × ApiNode)
  | .mk _ _ cs _ _ => cs

def ApiNode.before : ApiNode → HookVal
  | .mk _ _ _ b _ => b

def ApiNode.after : ApiNode → HookVal
  | .mk _ _ _ _ a => a

/-- JS object keys are strings: `children[path]` with a `null` path uses the
string key `"null"`. -/
def pathKey : Option String → String
  | none => "null"
  | some s => s

/-- A registration handed up the export chain (and finally to the host):
method, accumulated full path, handler identifier. -/
structure Reg where
  method : String
  path : Option String
  handler : Nat
deriving DecidableEq

/-- One bubbling step of `exportHandler`: a node receiving
`(method, path, parameters)` forwards `(method, normalizePath(path, this.path),
parameters)` to its parent (`fullPath = normalizePath(path, this.path)`). -/
def prefixReg (selfPath : Option String) (r : Reg) : Reg :=
  { r with path := normalizePath r.path selfPath }

mutual

/-- `exportAllHandlers`: the registrations this node hands to its parent,
re-emitting every own handler (via `exportHandler(method, null, parameters)`,
i.e. with path `normalizePath(null, this.path)`) and then every
descendant's, each child stream passing through this node's
`exportHandler` prefix step. -/
def exportAllHandlers : ApiNode → List Reg
  | .mk p hs cs _ _ =>
    hs.map (fun e => Reg.mk e.1 (normalizePath none p) e.2.handler)
      ++ exportChildren p cs

/-- The children loop of `exportAllHandlers`. -/
def exportChildren (p : Option String) : List (String × ApiNode) → List Reg
  | [] => []
  | (_, c) :: rest => (exportAllHandlers c).map (prefixReg p) ++ exportChildren p rest

end

/-- `addHandler` in its base case (`normalizePath(path)` falsy): store the
parameters under `method` in the own handler map and hand
`(method, normalizePath(null, this.path), parameters)` to the parent. -/
def addOwnHandler : ApiNode → String → HandlerParams → ApiNode × List Reg
  | .mk p hs cs b a, m, prm =>
    (.mk p (setKey hs m prm) cs b a, [Reg.mk m (normalizePath none p) prm.handler])

/-- `addHandler(method, path, parameters)`: if the normalized `path` is
falsy, register on this node; otherwise find or create (`this.api(path)`,
which sets the child's path to `normalizePath(path)` and stores it in
`children` under `String(child.path)`) the child and register there via
`child.addHandler(method, null, parameters)` — whose own `normalizePath(null)`
is falsy, i.e. the base case. The returned list is what this node hands to
its parent (dropped when the node is detached, delivered when attached). -/
def addHandler (n : ApiNode) (m : String) (pOpt : Option String) (prm : HandlerParams) :
    ApiNode × List Reg :=
  match normalizePath pOpt none with
  | none => addOwnHandler n m prm
  | some key =>
    match n with
    | .mk p hs cs b a =>
      match getKey cs key with
      | some c =>
        let r := addOwnHandler c m prm
        (.mk p hs (setKey cs key r.1) b a, r.2.map (prefixReg p))
      | none =>
        let c0 := ApiNode.mk (normalizePath (some key) none) [] [] .absent .absent
        let r := addOwnHandler c0 m prm
        (.mk p hs (setKey cs (pathKey (ApiNode.path c0)) r.1) b a, r.2.map (prefixReg p))

/-- A registration call made on a node: `addHandler(method, path, parameters)`. -/
structure Op where
  method : String
  path : Option String
  prm : HandlerParams

/-- Apply a sequence of `addHandler` calls, collecting the registrations the
node hands to its parent, in call order. -/
def applyOps : ApiNode → List Op → ApiNode × List Reg
  | n, [] => (n, [])
  | n, op :: rest =>
    let r := addHandler n op.method op.path op.prm
    let r' := applyOps r.1 rest
    (r'.1, r.2 ++ r'.2)

/-- The handler-map slot an `addHandler` call writes: its method together
with its normalized sub-path. -/
def opKey (op : Op) : String × Option String := (op.method, normalizePath op.path none)

/-- The slot `(m, k)` is not yet taken in `n` (no overwrite happens). -/
def freshIn (n : ApiNode) : String × Option String → Bool
  | (m, none) => (getKey n.handlers m).isNone
  | (m, some k) =>
    match getKey n.children k with
    | none => true
    | some c => (getKey c.handlers m).isNone

/-! ## Host adapter: capability probe and exporter closure -/

/-- The capability surface of a candidate server app: which route-registration
entry points (and `use`/`handle`) it exposes. Truthiness of `app.get` etc. in
the JS probe becomes a presence flag. -/
structure App where
  use : Bool := false
  handle : Bool := false
  get : Bool := false
  post : Bool := false
  put : Bool := false
  patch : Bool := false
  del : Bool := false
  delete : Bool := false
deriving DecidableEq

/-- `isServerApp(app)`: `!!(app && (app.use || app.handle) && app.get && app.post)`.
A candidate that is not even an object (`null`, a number, …) fails the JS
truthiness test up front; such candidates are the non-`pvapp` cases of
`setParentH` below. -/
def isServerApp (a : App) : Bool :=
  (a.use || a.handle) && a.get && a.post

/-- Whether `app[method]` exists, for the method names the exporter can use. -/
def hasVerb (a : App) : String → Bool
  | "get" => a.get
  | "post" => a.post
  | "put" => a.put
  | "patch" => a.patch
  | "del" => a.del
  | "delete" => a.delete
  | _ => false

/-- One registration event at a host app: the sink, the method name under
which `app[method](path, parameters.handler)` was invoked, the path and
handler, and whether that entry point existed (`ok = false` models the
`TypeError` thrown by calling a missing one). -/
structure HReg where
  sink : Nat
  method : String
  path : Option String
  handler : Nat
  ok : Bool
deriving DecidableEq

/-- The closure returned by `getHandlerExporter` for an app that passed the
`isServerApp` probe:
`if (method === 'del' && ('delete' in app)) { method = 'delete'; }
app[method](path, parameters.handler);`. -/
def handlerExporter (s : Nat) (a : App) (m : String) (p : Option String) (h : Nat) :
    List HReg :=
  let m' := if (m == "del") && a.delete then "delete" else m
  [HReg.mk s m' p h (hasVerb a m')]

/-! ## Heap model of the node graph

The tree model above threads parent links structurally, which is exactly
what holds while a tree is assembled through `addHandler`/`this.api(path)`.
Re-assigning `parent` on an object that an old parent still references
needs real aliasing, so here nodes live in a heap addressed by identifiers.
Handler parameters are reduced to their `handler` identifier (the only field
the export chain passes to a host). Traversals take fuel because an
arbitrary heap may contain cycles; every theorem supplies enough fuel. -/

/-- The parent slot of a heap node: `null`, another API node, or the wrapper
`{ exportHandler: exporter }` around a server app (kept with the app's sink
identity and capabilities). -/
inductive PRef where
  | pnone
  | pnode (id : Nat)
  | psink (s : Nat) (a : App)
deriving DecidableEq

/-- The mutable state of one API object. -/
structure NodeData where
  path : Option String := none
  handlers : List (String × Nat) := []
  children : List (String × Nat) := []
  parent : PRef := .pnone
deriving DecidableEq

/-- The heap of API objects. -/
structure Sys where
  nodes : List (Nat × NodeData)
deriving DecidableEq

def lookupNode (sys : Sys) (id : Nat) : Option NodeData :=
  getKey sys.nodes id

def updateNode (sys : Sys) (id : Nat) (f : NodeData → NodeData) : Sys :=
  { nodes :=
      match getKey sys.nodes id with
      | none => sys.nodes
      | some nd => setKey sys.nodes id (f nd) }

/-- `exportHandler` on the heap: stop at a missing parent, prefix with the
own path (`fullPath = normalizePath(path, this.path)`) and recurse into a
node parent, or deliver through the sink's exporter closure. -/
def exportHandlerH (sys : Sys) : Nat → Nat → String → Option String → Nat → List HReg
  | 0, _, _, _, _ => []
  | fuel + 1, id, m, p, h =>
    match lookupNode sys id with
    | none => []
    | some nd =>
      match nd.parent with
      | .pnone => []
      | .pnode pid => exportHandlerH sys fuel pid m (normalizePath p nd.path) h
      | .psink s a => handlerExporter s a m (normalizePath p nd.path) h

/-- `exportAllHandlers` on the heap: a no-op without a parent; otherwise
re-export every own handler via `exportHandler(method, null, parameters)` and
recurse into the children. Each node consults its own *current* parent
link. -/
def exportAllHandlersH (sys : Sys) : Nat → Nat → List HReg
  | 0, _ => []
  | fuel + 1, id =>
    match lookupNode sys id with
    | none => []
    | some nd =>
      match nd.parent with
      | .pnone => []
      | _ =>
        nd.handlers.flatMap (fun e => exportHandlerH sys (fuel + 1) id e.1 none e.2)
          ++ nd.children.flatMap (fun e => exportAllHandlersH sys fuel e.2)

/-- A JS value assigned to `.parent`: an API node, a candidate server app
(with the identity of the underlying object as sink id), `null`, or any
other unsupported value. -/
inductive ParentVal where
  | pvnode (id : Nat)
  | pvapp (s : Nat) (a : App)
  | pvnull
  | pvother

/-- The `parent === this._parent` identity test. A constructed node always
has `_parent === null` until a supported parent is set; the app wrapper
`{ exportHandler: exporter }` is a fresh object, never identical to the raw
value being assigned. -/
def samePar : ParentVal → PRef → Bool
  | .pvnode i, .pnode j => i == j
  | .pvnull, .pnone => true
  | _, _ => false

/-- The `set parent` accessor on the heap. Same parent → no-op; another API
instance → link both ways (`parent.children[this.path] = this`) and
`exportAllHandlers`; a probed server app → wrap as export sink and
`exportAllHandlers`; anything else → detach (`this._parent = null`).
Returns the new heap and the registration events delivered to sinks. -/
def setParentH (fuel : Nat) (sys : Sys) (id : Nat) (pv : ParentVal) : Sys × List HReg :=
  match lookupNode sys id with
  | none => (sys, [])
  | some nd =>
    if samePar pv nd.parent then (sys, [])
    else
      match pv with
      | .pvnode q =>
        let sys1 := updateNode sys q
          (fun qd => { qd with children := setKey qd.children (pathKey nd.path) id })
        let sys2 := updateNode sys1 id (fun d => { d with parent := .pnode q })
        (sys2, exportAllHandlersH sys2 fuel id)
      | .pvapp s a =>
        if isServerApp a then
          let sys2 := updateNode sys id (fun d => { d with parent := .psink s a })
          (sys2, exportAllHandlersH sys2 fuel id)
        else
          (updateNode sys id (fun d => { d with parent := .pnone }), [])
      | .pvnull => (updateNode sys id (fun d => { d with parent := .pnone }), [])
      | .pvother => (updateNode sys id (fun d => { d with parent := .pnone }), [])

/-! ## The example test runner and the orchestrator -/

/-- A parsed URL: the fields of Node's legacy `url.parse` that the runner
reads. `url.format` followed by `url.parse` round-trips these fields, so
base URLs are carried in parsed form. -/
structure UrlRec where
  protocol : String := "http:"
  hostname : String := "localhost"
  port : Option String := none
  pathname : Option String := none

/-- One scheduled example test: everything
`self.testHandlerExample.bind(self, baseUrl, method, handler, example)`
captures (the node's own path and hooks stand for `self`). -/
structure TestTask where
  baseUrl : UrlRec := {}
  nodePath : Option String := none
  before : HookVal := .absent
  after : HookVal := .absent
  method : String := "get"
  title : Option String := none
  ex : Example := {}

mutual

/-- `exportAllTests(baseUrl, callback)`: one task per own `(method, example)`
pair, then the children's tasks against `childBaseUrl`, whose pathname is
`normalizePath(self.path, childBaseUrl.pathname)`. -/
def exportAllTests : ApiNode → UrlRec → List TestTask
  | .mk p hs cs b a, u =>
    hs.flatMap (fun e => e.2.examples.map (fun ex =>
      TestTask.mk u p b a e.1 e.2.title ex))
      ++ exportChildTests { u with pathname := normalizePath p u.pathname } cs

/-- The children loop of `exportAllTests`. -/
def exportChildTests (u : UrlRec) : List (String × ApiNode) → List TestTask
  | [] => []
  | (_, c) :: rest => exportAllTests c u ++ exportChildTests u rest

end

/-- The `actualResponse` recorded in a failure summary: error-shaped for a
network fault, otherwise the status plus the headers/body exactly when they
were part of the expectation. -/
inductive ActualResponse where
  | ofError (msg : String)
  | ofStatus (status : Int) (headers : Option (List (String × String)))
      (body : Option String)

/-- A per-example result summary. The JS object grows fields dynamically:
`response` on a pass, `expectedResponse`/`actualResponse` on a failure. -/
structure Summary where
  handlerTitle : String
  method : String
  uri : Option String
  request : ExampleRequest
  response : Option ExampleResponse := none
  expectedResponse : Option ExampleResponse := none
  actualResponse : Option ActualResponse := none

/-- The aggregated `{ failed, passed }` results object. -/
structure Results where
  failed : List Summary := []
  passed : List Summary := []

/-- The observed HTTP response object. Header fields live under `headers`
(lower-cased names, as Node stores them); `props` are the own properties
reachable by bracket access `response[key]` on the `IncomingMessage` object
itself — a real response has no own property named after a header. -/
structure JsResponse where
  statusCode : Int := 200
  headers : List (String × String) := []
  props : List (String × String) := []

/-- Bracket access `response[key]` (for keys that are not `headers` or
`statusCode` themselves, which never look like lower-cased header names in
the scenarios below). -/
def respProp (r : JsResponse) (key : String) : Option String :=
  getKey r.props key

/-- How the issued request terminates: a full response (status object plus
the buffered body), or an `error` event — emitted on a connection failure or
by the 10-second timer (`request.emit('error', new Error('timed out'))`). -/
inductive TOutcome where
  | response (r : JsResponse) (body : String)
  | netError (msg : String)

/-- How one `testHandlerExample` invocation ends abnormally. The first three
are error values delivered to the completion callback. `thrown` is different:
it marks the synchronous `TypeError` the source raises while building the
request (`requestOptions.path.replace(...)` on a `null` path, line 538) — in
the source no callback is ever invoked and the exception escapes the whole
`runNextTest` loop, so the run never completes. The model carries `thrown`
in the error slot with empty results so that such an execution is never a
completion (a completion is exactly a `none` error); the results component
returned alongside it is bookkeeping the source never delivers. -/
inductive RunErr where
  | invalidBase
  | hookNotFunction
  | hookError (msg : String)
  | thrown
deriving DecidableEq

/-- `exampleResponse.status || 200`: absent or a falsy literal `0` default
to `200`; a function value is truthy and kept. -/
def statusExpected : Option StatusExp → StatusExp
  | none => .num 200
  | some (.num 0) => .num 200
  | some e => e

/-- `response.statusCode !== expectedStatusCode`: strict inequality of the
actual number against the number-or-function expectation. A number is never
strictly equal to a function value, so a predicate expectation always
compares as mismatched here. -/
def statusMismatch (st : Option StatusExp) (actual : Int) : Bool :=
  match statusExpected st with
  | .num n => !(actual == n)
  | .fn _ => true

/-- `response[header.toLowerCase()] !== expectedHeaders[header]`: the
looked-up own property (a string or `undefined`) against the
string-or-function expectation; again a function value is never strictly
equal to it. -/
def headerMismatch (v : Option String) : HeaderExp → Bool
  | .str s => !(v == some s)
  | .fn _ => true

/-- The expected-header loop: the first mismatch sets `success = false` and
`break`s out. -/
def headersOk (r : JsResponse) : List (String × HeaderExp) → Bool
  | [] => true
  | (h, v) :: rest =>
    if headerMismatch (respProp r h.toLower) v then false
    else headersOk r rest

/-- Substitute each `urlParameters` entry into the request path:
`path.replace(new RegExp(':' + name, 'g'), value)`, within the `plainParam`
fragment where that call coincides with global literal replacement of
`":" ++ name` (which is what `String.replace` computes). -/
def substParams (params : List (String × String)) (path : String) : String :=
  params.foldl (fun p e => p.replace (":" ++ e.1) e.2) path

/-- JS string coercion of `null`/`undefined` under `+`. -/
def jsString : Option String → String
  | none => "null"
  | some s => s

/-- The query string: pairs joined by `'&'`, a falsy (empty) value drops its
`'='` part. `encodeURIComponent` is modelled as the identity, which is what
it computes on the unreserved alphabet; no scenario below needs reserved
characters. -/
def queryString (qs : List (String × String)) : String :=
  String.intercalate "&" (qs.map (fun e => e.1 ++ (if e.2 == "" then "" else "=" ++ e.2)))

/-- `requestOptions.path`: the pathname `normalizePath(self.path,
testUrl.pathname)` after URL-parameter substitution and query-string
appending. This is the value the substitution loop produces when it runs at
all: when the resolved pathname is `null` *and* `urlParameters` has an
entry, the source instead throws `TypeError` on `null.replace` —
`testHandlerExample` checks that condition first and returns
`RunErr.thrown`, never reading this value. -/
def requestOptionsPath (task : TestTask) : Option String :=
  let exampleRequest := task.ex.request.getD {}
  let pathname := normalizePath task.nodePath task.baseUrl.pathname
  let path1 := pathname.map (substParams exampleRequest.urlParameters)
  match exampleRequest.queryParameters with
  | none => path1
  | some qs => some (jsString path1 ++ "?" ++ queryString qs)

/-- The summary built before the request is issued:
`{ handler, method, uri, request }`. -/
def baseSummary (task : TestTask) : Summary :=
  { handlerTitle := task.title.getD "(no title)"
    method := task.method
    uri := requestOptionsPath task
    request := task.ex.request.getD {} }

/-- The failure summary recorded by the `request.on('error', ...)` listener:
the expectation plus an error-shaped actual response. -/
def netFailSummary (task : TestTask) (msg : String) : Summary :=
  { baseSummary task with
    expectedResponse := some (task.ex.response.getD {})
    actualResponse := some (.ofError msg) }

/-- Whether a hook slot passes the `typeof ... !== 'function'` check. -/
def hookIsFn : HookVal → Bool
  | .notFn => false
  | _ => true

/-- The error a hook hands to its continuation (the runner forwards it to
the completion callback). -/
def hookErr : HookVal → Option RunErr
  | .fn (some e) => some (.hookError e)
  | _ => none

/-- `testHandlerExample(baseUrl, method, handler, example, callback)` as a
function of the request's outcome: protocol dispatch, hook checks, request
construction, the status/header/body comparisons, and the result summary.
Returns the `(error, results)` pair passed to the callback — except for the
`RunErr.thrown` case, where the source throws synchronously while
substituting URL parameters into a `null` request path (after the hook
`typeof` checks, before `beforeEachTest` runs) and no callback ever fires. -/
def testHandlerExample (task : TestTask) (out : TOutcome) : Option RunErr × Results :=
  let exampleResponse := task.ex.response.getD {}
  if !(task.baseUrl.protocol == "https:" || task.baseUrl.protocol == "http:") then
    (some .invalidBase, {})
  else if !hookIsFn task.before then (some .hookNotFunction, {})
  else if !hookIsFn task.after then (some .hookNotFunction, {})
  else if (normalizePath task.nodePath task.baseUrl.pathname).isNone
      && !(task.ex.request.getD {}).urlParameters.isEmpty then
    (some .thrown, {})
  else
    match hookErr task.before with
    | some e => (some e, {})
    | none =>
      match out with
      | .netError msg =>
        (hookErr task.after, { failed := [netFailSummary task msg], passed := [] })
      | .response r body =>
        let smis := statusMismatch exampleResponse.status r.statusCode
        let hmis :=
          match exampleResponse.headers with
          | none => false
          | some hdrs => !headersOk r hdrs
        let expectedBody := exampleResponse.body.map String.trim
        let bodyT := body.trim
        let bmis :=
          match expectedBody with
          | none => false
          | some eb => !(bodyT == eb)
        if smis || hmis || bmis then
          (hookErr task.after,
            { failed := [{ baseSummary task with
                expectedResponse := some exampleResponse
                actualResponse := some (.ofStatus r.statusCode
                  (match exampleResponse.headers with
                    | none => none
                    | some _ => some r.headers)
                  (match expectedBody with
                    | none => none
                    | some _ => some bodyT)) }]
              passed := [] })
        else
          (hookErr task.after,
            { failed := []
              passed := [{ baseSummary task with response := some exampleResponse }] })

/-- `test`'s `runNextTest` loop: stop when `tests.length === 0`, otherwise
pick an index (`Math.floor(Math.random() * tests.length)`, modelled by an
oracle reduced modulo the remaining length), splice that test out, run it,
merge its results into the accumulator, and recurse — stopping early at the
first run-level error (a `RunErr.thrown` marker also ends the loop: in the
source the synchronous exception propagates out of it, and no callback —
hence no completion — ever happens). The loop consumes exactly one test per
round, so it
is driven by a fuel counter that the entry point sets to `tests.length`; the
fuel-exhausted-but-nonempty branch is unreachable from the entry point. -/
def runNextTest (pick : Nat → Nat) : Nat → Nat → List (TestTask × TOutcome) → Results →
    Option RunErr × Results
  | _, _, [], acc => (none, acc)
  | 0, _, _ :: _, acc => (none, acc)
  | fuel + 1, step, t0 :: trest, acc =>
    have hi : pick step % (t0 :: trest).length < (t0 :: trest).length :=
      Nat.mod_lt _ (Nat.succ_pos _)
    let t := (t0 :: trest).get ⟨pick step % (t0 :: trest).length, hi⟩
    let rest := (t0 :: trest).eraseIdx (pick step % (t0 :: trest).length)
    let r := testHandlerExample t.1 t.2
    let acc' : Results := { failed := acc.failed ++ r.2.failed,
                            passed := acc.passed ++ r.2.passed }
    match r.1 with
    | some e => (some e, acc')
    | none => runNextTest pick fuel (step + 1) rest acc'

/-- `test(baseUrl, callback)`: schedule every task of the tree via
`exportAllTests`, pair each with its network outcome, and run the
`runNextTest` loop from empty results. -/
def testRun (n : ApiNode) (u : UrlRec) (outs : List TOutcome) (pick : Nat → Nat) :
    Option RunErr × Results :=
  runNextTest pick ((exportAllTests n u).zip outs).length 0 ((exportAllTests n u).zip outs) {}

/-- The empty, path-less node `selfapi()` constructs. -/
def emptyNode : ApiNode := .mk none [] [] .absent .absent

/-- Two registrations on distinct slots: an own `get` handler and a `post`
handler on the `/users` sub-resource. -/
def c1Ops : List Op :=
  [⟨"get", none, { handler := 1 }⟩, ⟨"post", some "/users", { handler := 2 }⟩]

/-- The predicate of the claim's scenario, `s => s >= 200 && s < 300`. -/
def c2Predicate : Int → Bool := fun s => decide (200 ≤ s ∧ s < 300)

/-- An example whose expected status is that predicate, on a default node. -/
def c2Task : TestTask :=
  { ex := { response := some { status := some (.fn c2Predicate) } } }

/-- A response whose `headers` map carries `content-type: text/html` but —
like every real `IncomingMessage` — has no own property of that name. -/
def c3Response : JsResponse :=
  { statusCode := 200, headers := [("content-type", "text/html")], props := [] }

/-- An example expecting the literal header `Content-Type: text/html`. -/
def c3Task : TestTask :=
  { ex := { response := some { headers := some [("Content-Type", .str "text/html")] } } }

/-- A child mounted at `/users` owning one trivial (always passing) example. -/
def c4Child : ApiNode :=
  .mk (some "/users") [("get", { handler := 9, examples := [{}] })] [] .absent .absent

/-- Its parent, mounted at `/api`. -/
def c4Parent : ApiNode := .mk (some "/api") [] [("/users", c4Child)] .absent .absent

/-- `url.parse("http://host:8080/api")`. -/
def c4BaseWithApi : UrlRec :=
  { protocol := "http:", hostname := "host", port := some "8080", pathname := some "/api" }

/-- `url.parse("http://host:8080")`. -/
def c4BaseRoot : UrlRec :=
  { protocol := "http:", hostname := "host", port := some "8080", pathname := none }

/-- A live response matching the trivial example: status 200, nothing
checked. -/
def c4Outcome : TOutcome := .response {} ""

/-- A node with a single own example, for the counting witness. -/
def c5Node : ApiNode :=
  .mk (some "/api") [("get", { handler := 1, examples := [{}] })] [] .absent .absent

/-- An app exposing exactly `{get, post, put}` — the set the claim says the
probe requires — but neither `use` nor `handle`. -/
def putOnlyApp : App := { get := true, post := true, put := true }

/-- A detached node owning one handler, for the probe scenarios. -/
def c6Node : NodeData :=
  { path := some "/a", handlers := [("get", 3)], children := [], parent := .pnone }

/-- A heap with just that node, for the probe scenarios. -/
def c6Sys : Sys := ⟨[(1, c6Node)]⟩

/-- An express-like host: `use` plus all five canonical verbs. -/
def expressApp : App :=
  { use := true, get := true, post := true, put := true, patch := true, delete := true }

/-- A restify-like host: it has `del` but no `delete` entry point. -/
def restifyApp : App :=
  { use := true, get := true, post := true, put := true, del := true }

/-- A heap where parent `p` (id 1, path `/p`, mounted on sink 0) holds child
`n` (id 2, path `/n`, one `get` handler) in its children map. -/
def c10Sys : Sys :=
  ⟨[(1, { path := some "/p", handlers := [], children := [("/n", 2)],
          parent := .psink 0 expressApp }),
    (2, { path := some "/n", handlers := [("get", 7)], children := [], parent := .pnode 1 })]⟩

/-- The heap after `n.parent = hostB` (a second, express-like sink, id 1). -/
def c10After : Sys := (setParentH 10 c10Sys 2 (.pvapp 1 expressApp)).1

theorem getKey_setKey_same {κ α : Type} [DecidableEq κ] (l : List (κ × α)) (k : κ) (v : α) :
    getKey (setKey l k v) k = some v := by
  induction l with
  | nil => simp [getKey, setKey]
  | cons hd tl ih =>
    obtain ⟨k', v'⟩ := hd
    by_cases h : k' = k
    · simp [getKey, setKey, h]
    · simp [getKey, setKey, h, ih]

theorem getKey_setKey_other {κ α : Type} [DecidableEq κ] (l : List (κ × α)) (k k' : κ) (v : α)
    (h : k ≠ k') : getKey (setKey l k v) k' = getKey l k' := by
  induction l with
  | nil => simp [getKey, setKey, h]
  | cons hd tl ih =>
    obtain ⟨k₀, v₀⟩ := hd
    by_cases h₀ : k₀ = k
    · subst h₀
      simp [getKey, setKey, h]
    · simp only [setKey, if_neg h₀, getKey]
      by_cases h₁ : k₀ = k'
      · simp [h₁]
      · simp [h₁, ih]

theorem setKey_of_getKey_none {κ α : Type} [DecidableEq κ] (l : List (κ × α)) (k : κ) (v : α)
    (h : getKey l k = none) : setKey l k v = l ++ [(k, v)] := by
  induction l with
  | nil => simp [setKey]
  | cons hd tl ih =>
    obtain ⟨k₀, v₀⟩ := hd
    by_cases h₀ : k₀ = k
    · simp [getKey, h₀] at h
    · simp only [getKey, if_neg h₀] at h
      simp [setKey, h₀, ih h]

/-! ### Structural lemmas about the segment algebra -/

theorem splitOnSlash_ne_nil (l : List Char) : splitOnSlash l ≠ [] := by
  cases l with
  | nil => simp [splitOnSlash]
  | cons c cs =>
    simp only [splitOnSlash]
    by_cases h : c = '/'
    · simp [h]
    · simp only [if_neg h]
      cases splitOnSlash cs <;> simp

theorem splitOnSlash_cons_slash (l : List Char) :
    splitOnSlash ('/' :: l) = [] :: splitOnSlash l := by
  simp [splitOnSlash]

theorem mem_splitOnSlash_no_slash (l : List Char) :
    ∀ seg ∈ splitOnSlash l, '/' ∉ seg := by
  induction l with
  | nil =>
    intro seg h
    simp only [splitOnSlash, List.mem_singleton] at h
    subst h
    simp
  | cons c cs ih =>
    intro seg h
    simp only [splitOnSlash] at h
    by_cases hc : c = '/'
    · rw [if_pos hc, List.mem_cons] at h
      rcases h with h | h
      · subst h
        simp
      · exact ih seg h
    · rw [if_neg hc] at h
      rcases h' : splitOnSlash cs with _ | ⟨s, rest⟩
      · exact absurd h' (splitOnSlash_ne_nil cs)
      · rw [h', List.mem_cons] at h
        rcases h with h | h
        · subst h
          intro hm
          rw [List.mem_cons] at hm
          rcases hm with hm | hm
          · exact hc hm.symm
          · exact ih s (h' ▸ List.mem_cons_self s rest) hm
        · exact ih seg (h' ▸ List.mem_cons_of_mem s h)

theorem splitOnSlash_no_slash (s : List Char) (h : '/' ∉ s) : splitOnSlash s = [s] := by
  induction s with
  | nil => simp [splitOnSlash]
  | cons c cs ih =>
    simp only [List.mem_cons, not_or] at h
    have hc : ¬c = '/' := fun hc => h.1 hc.symm
    simp [splitOnSlash, hc, ih h.2]

theorem splitOnSlash_append_seg (s t : List Char) (h : '/' ∉ s) :
    splitOnSlash (s ++ '/' :: t) = s :: splitOnSlash t := by
  induction s with
  | nil => simp [splitOnSlash_cons_slash]
  | cons c cs ih =>
    simp only [List.mem_cons, not_or] at h
    have hc : ¬c = '/' := fun hc => h.1 hc.symm
    simp [splitOnSlash, hc, ih h.2]

theorem splitOnSlash_append_slash (l : List Char) :
    splitOnSlash (l ++ ['/']) = splitOnSlash l ++ [[]] := by
  induction l with
  | nil => simp [splitOnSlash]
  | cons c cs ih =>
    by_cases hc : c = '/'
    · simp [hc, splitOnSlash_cons_slash, ih]
    · rcases h' : splitOnSlash cs with _ | ⟨s, rest⟩
      · exact absurd h' (splitOnSlash_ne_nil cs)
      · simp [splitOnSlash, hc, ih, h']

theorem joinSegs_ne_nil (segs : List (List Char)) (hne : segs ≠ [])
    (hgood : ∀ s ∈ segs, s ≠ []) : joinSegs segs ≠ [] := by
  cases segs with
  | nil => exact absurd rfl hne
  | cons s rest =>
    cases rest with
    | nil => simpa [joinSegs] using hgood s (by simp)
    | cons s' rest' =>
      have := hgood s (by simp)
      simp only [joinSegs]
      intro h
      rw [List.append_eq_nil] at h
      exact this h.1

theorem getLast?_cons_of_ne_nil {α : Type} (a : α) (l : List α) (h : l ≠ []) :
    (a :: l).getLast? = l.getLast? := by
  cases l with
  | nil => exact absurd rfl h
  | cons b t => simp [List.getLast?_cons_cons]

theorem joinSegs_getLast?_ne_slash (segs : List (List Char)) (hne : segs ≠ [])
    (hgood : ∀ s ∈ segs, s ≠ [] ∧ '/' ∉ s) : (joinSegs segs).getLast? ≠ some '/' := by
  induction segs with
  | nil => exact absurd rfl hne
  | cons s rest ih =>
    cases rest with
    | nil =>
      obtain ⟨h1, h2⟩ := hgood s (by simp)
      simp only [joinSegs]
      intro h
      rw [List.getLast?_eq_some_iff] at h
      obtain ⟨l', rfl⟩ := h
      exact h2 (by simp)
    | cons s' rest' =>
      simp only [joinSegs]
      have hrest : joinSegs (s' :: rest') ≠ [] :=
        joinSegs_ne_nil _ (by simp) (fun x hx => (hgood x (List.mem_cons_of_mem s hx)).1)
      rw [List.getLast?_append]
      rw [getLast?_cons_of_ne_nil _ _ hrest]
      obtain ⟨y, hy⟩ := Option.isSome_iff_exists.mp (List.getLast?_isSome.mpr hrest)
      rw [hy]
      have hor : (some y).or s.getLast? = some y := rfl
      rw [hor, ← hy]
      exact ih (by simp) (fun x hx => hgood x (List.mem_cons_of_mem s hx))

theorem splitOnSlash_joinSegs (segs : List (List Char)) (hne : segs ≠ [])
    (hgood : ∀ s ∈ segs, '/' ∉ s) : splitOnSlash (joinSegs segs) = segs := by
  induction segs with
  | nil => exact absurd rfl hne
  | cons s rest ih =>
    cases rest with
    | nil => simp [joinSegs, splitOnSlash_no_slash s (hgood s (by simp))]
    | cons s' rest' =>
      simp only [joinSegs]
      rw [splitOnSlash_append_seg _ _ (hgood s (by simp))]
      rw [ih (by simp) (fun x hx => hgood x (List.mem_cons_of_mem s hx))]

theorem stepSeg_empty (ab : Bool) (st : List (List Char)) : stepSeg ab st [] = st := by
  simp [stepSeg]

theorem stepSeg_good (ab : Bool) (st : List (List Char)) (s : List Char) (h : goodSeg s) :
    stepSeg ab st s = s :: st := by
  obtain ⟨h1, h2, h3, _⟩ := h
  simp [stepSeg, h1, h2, h3]

theorem foldl_stepSeg_good (ab : Bool) (segs : List (List Char)) :
    ∀ acc, (∀ s ∈ segs, goodSeg s) →
    segs.foldl (stepSeg ab) acc = segs.reverse ++ acc := by
  induction segs with
  | nil =>
    intro acc _
    simp
  | cons s rest ih =>
    intro acc hg
    rw [List.foldl_cons, stepSeg_good ab acc s (hg s (by simp))]
    rw [ih (s :: acc) (fun x hx => hg x (List.mem_cons_of_mem s hx))]
    simp

theorem foldl_stepSeg_replicate (ab : Bool) (k : Nat) (segs acc : List (List Char)) :
    (List.replicate k [] ++ segs).foldl (stepSeg ab) acc = segs.foldl (stepSeg ab) acc := by
  induction k with
  | zero => simp
  | succ n ih => simp [List.replicate_succ, stepSeg_empty, ih]

theorem foldl_stepSeg_concat_empty (ab : Bool) (segs acc : List (List Char)) :
    (segs ++ [[]]).foldl (stepSeg ab) acc = segs.foldl (stepSeg ab) acc := by
  rw [List.foldl_append]
  simp [stepSeg_empty]

theorem foldl_stepSeg_all_good (segs : List (List Char)) :
    ∀ acc, (∀ s ∈ segs, '/' ∉ s) → (∀ x ∈ acc, goodSeg x) →
    ∀ x ∈ segs.foldl (stepSeg false) acc, goodSeg x := by
  induction segs with
  | nil =>
    intro acc _ hacc
    simpa using hacc
  | cons s rest ih =>
    intro acc hs hacc
    rw [List.foldl_cons]
    apply ih _ (fun x hx => hs x (List.mem_cons_of_mem s hx))
    intro x hx
    by_cases h1 : s = [] ∨ s = ['.']
    · simp only [stepSeg, if_pos h1] at hx
      exact hacc x hx
    · by_cases h2 : s = ['.', '.']
      · cases acc with
        | nil =>
          simp only [stepSeg, if_neg h1, if_pos h2, Bool.false_eq_true, if_false] at hx
          exact absurd hx (List.not_mem_nil x)
        | cons top racc =>
          have htop : top ≠ ['.', '.'] := (hacc top (by simp)).2.2.1
          simp only [stepSeg, if_neg h1, if_pos h2, if_neg htop] at hx
          exact hacc x (List.mem_cons_of_mem top hx)
      · simp only [stepSeg, if_neg h1, if_neg h2, List.mem_cons] at hx
        push_neg at h1
        rcases hx with hx | hx
        · subst hx
          exact ⟨h1.1, h1.2, h2, hs x (by simp)⟩
        · exact hacc x hx

theorem replicate_append_cons {α : Type} (k : Nat) (a : α) (y : List α) :
    List.replicate k a ++ a :: y = a :: (List.replicate k a ++ y) := by
  rw [← List.singleton_append, ← List.append_assoc, ← List.replicate_succ',
    List.replicate_succ, List.cons_append]

theorem splitOnSlash_replicate (k : Nat) (x : List Char) :
    splitOnSlash (List.replicate k '/' ++ x) = List.replicate k [] ++ splitOnSlash x := by
  induction k with
  | zero => simp
  | succ n ih => simp [List.replicate_succ, splitOnSlash_cons_slash, ih]

theorem canonAbs_ne_root (s : String) (h : CanonAbs s) : s ≠ "/" := by
  obtain ⟨segs, T, hne, hgood, _, hdata⟩ := h
  intro hs
  subst hs
  have hj : joinSegs segs ≠ [] := joinSegs_ne_nil segs hne (fun x hx => (hgood x hx).1)
  have : ('/' : Char) :: (joinSegs segs ++ T) = ['/'] := hdata.symm
  have := congrArg List.tail this
  simp at this
  exact hj this.1

theorem data_mk (l : List Char) : (String.mk l).data = l := rfl

theorem posixNormalize_canon_slashes (s : String) (h : CanonAbs s) (k : Nat) :
    posixNormalize (String.mk (List.replicate k '/' ++ s.data)) = s := by
  obtain ⟨segs, T, hne, hgood, hT, hdata⟩ := h
  have hseg_ne : ∀ x ∈ segs, x ≠ [] := fun x hx => (hgood x hx).1
  have hseg_sl : ∀ x ∈ segs, '/' ∉ x := fun x hx => (hgood x hx).2.2.2
  have hjoin_ne : joinSegs segs ≠ [] := joinSegs_ne_nil segs hne hseg_ne
  have hdata' : List.replicate k '/' ++ s.data
      = '/' :: (List.replicate k '/' ++ (joinSegs segs ++ T)) := by
    rw [hdata, replicate_append_cons]
  have hhead : (List.replicate k '/' ++ s.data).head? = some '/' := by
    rw [hdata']
    rfl
  have hne_nil : ¬(List.replicate k '/' ++ s.data) = [] := by
    rw [hdata']
    simp
  rcases hT with hT | hT <;> subst hT
  · -- no trailing slash
    obtain ⟨y, hy⟩ := Option.isSome_iff_exists.mp (List.getLast?_isSome.mpr hjoin_ne)
    have hyne : y ≠ '/' := fun hcon =>
      (joinSegs_getLast?_ne_slash segs hne
        (fun x hx => ⟨hseg_ne x hx, hseg_sl x hx⟩)) (hcon ▸ hy)
    have hlast : (List.replicate k '/' ++ s.data).getLast? = some y := by
      rw [hdata', ← List.cons_append, List.getLast?_append, List.append_nil, hy]
      rfl
    have hsplit : splitOnSlash (List.replicate k '/' ++ s.data)
        = [] :: (List.replicate k [] ++ segs) := by
      rw [hdata', splitOnSlash_cons_slash, splitOnSlash_replicate, List.append_nil,
        splitOnSlash_joinSegs segs hne hseg_sl]
    have hscan : normalizeString (List.replicate k '/' ++ s.data) false = joinSegs segs := by
      rw [normalizeString, hsplit, List.foldl_cons, stepSeg_empty, foldl_stepSeg_replicate,
        foldl_stepSeg_good false segs [] hgood]
      simp
    have htr : (some y == some '/') = false := by simpa using hyne
    simp only [posixNormalize, data_mk, if_neg hne_nil, hhead, hlast, beq_self_eq_true,
      Bool.not_true, hscan, htr, if_neg hjoin_ne]
    apply String.ext
    simp [data_mk, hdata]
  · -- trailing slash
    have hlast : (List.replicate k '/' ++ s.data).getLast? = some '/' := by
      rw [hdata', ← List.cons_append, List.getLast?_append, List.getLast?_concat]
      rfl
    have hsplit : splitOnSlash (List.replicate k '/' ++ s.data)
        = [] :: (List.replicate k [] ++ (segs ++ [[]])) := by
      rw [hdata', splitOnSlash_cons_slash, splitOnSlash_replicate, splitOnSlash_append_slash,
        splitOnSlash_joinSegs segs hne hseg_sl]
    have hscan : normalizeString (List.replicate k '/' ++ s.data) false = joinSegs segs := by
      rw [normalizeString, hsplit, List.foldl_cons, stepSeg_empty, foldl_stepSeg_replicate,
        foldl_stepSeg_concat_empty, foldl_stepSeg_good false segs [] hgood]
      simp
    simp only [posixNormalize, data_mk, if_neg hne_nil, hhead, hlast, beq_self_eq_true,
      Bool.not_true, hscan, if_neg hjoin_ne]
    apply String.ext
    simp [data_mk, hdata]

theorem posixNormalize_canon (s : String) (h : CanonAbs s) : posixNormalize s = s := by
  have hk := posixNormalize_canon_slashes s h 0
  rw [List.replicate_zero, List.nil_append] at hk
  have hs : String.mk s.data = s := by
    apply String.ext
    rfl
  rw [hs] at hk
  exact hk

theorem posixNormalize_abs_out (s : String) (habs : s.data.head? = some '/') :
    posixNormalize s = "/" ∨ CanonAbs (posixNormalize s) := by
  have hne : s.data ≠ [] := by
    intro h
    rw [h] at habs
    exact absurd habs (by simp)
  rw [posixNormalize.eq_def]
  simp only [if_neg hne, habs, beq_self_eq_true, Bool.not_true]
  by_cases hres : normalizeString s.data false = []
  · rw [if_pos hres]
    simp
  · rw [if_neg hres]
    simp only [if_true]
    right
    set R := ((splitOnSlash s.data).foldl (stepSeg false) []).reverse with hR
    have hRgood : ∀ x ∈ R, goodSeg x := by
      intro x hx
      rw [hR, List.mem_reverse] at hx
      exact foldl_stepSeg_all_good (splitOnSlash s.data) []
        (mem_splitOnSlash_no_slash s.data) (by simp) x hx
    have hRne : R ≠ [] := by
      intro hcon
      apply hres
      rw [normalizeString, ← hR, hcon]
      rfl
    refine ⟨R, if (s.data.getLast? == some '/') = true then ['/'] else [], hRne, hRgood, ?_, ?_⟩
    · by_cases ht : (s.data.getLast? == some '/') = true
      · right
        rw [if_pos ht]
      · left
        rw [if_neg ht]
    · have hns : normalizeString s.data false = joinSegs R := rfl
      rw [data_mk, hns]
      by_cases ht : (s.data.getLast? == some '/') = true
      · rw [if_pos ht]
        simp
      · rw [if_neg ht]
        simp

theorem normalizePath_none_none : normalizePath none none = none := by decide

theorem append_slash_data (a : String) : ("/" ++ "/" ++ a).data = '/' :: '/' :: a.data := by
  rw [String.data_append, String.data_append]
  rfl

theorem normalizePath_none_canon (p : Option String) (s : String)
    (h : normalizePath p none = some s) : CanonAbs s := by
  cases p with
  | none => rw [normalizePath_none_none] at h; exact absurd h (by simp)
  | some ps =>
    by_cases hps : ps = ""
    · subst hps
      have : normalizePath (some "") none = none := by decide
      rw [this] at h
      exact absurd h (by simp)
    · rw [normalizePath] at h
      simp only [pathJoin, if_neg (by simp : ¬("/" : String) = ""), if_neg hps] at h
      have habs : ("/" ++ "/" ++ ps).data.head? = some '/' := by
        rw [append_slash_data]
        rfl
      rcases posixNormalize_abs_out _ habs with hout | hout
      · rw [hout] at h
        have : posixNormalize "/" = "/" := by decide
        rw [this] at h
        exact absurd h (by simp)
      · rw [posixNormalize_canon _ hout] at h
        rw [if_neg (by simpa using canonAbs_ne_root _ hout)] at h
        have := (Option.some.injEq _ _).mp h
        rw [← this]
        exact hout

theorem canonAbs_ne_empty (s : String) (h : CanonAbs s) : s ≠ "" := by
  obtain ⟨segs, T, _, _, _, hdata⟩ := h
  intro hcon
  subst hcon
  exact absurd hdata (by simp)

theorem normalizePath_canon_self (s : String) (h : CanonAbs s) :
    normalizePath (some s) none = some s := by
  have hsne : s ≠ "" := canonAbs_ne_empty s h
  rw [normalizePath]
  simp only [pathJoin, if_neg (by simp : ¬("/" : String) = ""), if_neg hsne]
  have h2 : ("/" ++ "/" ++ s) = String.mk (List.replicate 2 '/' ++ s.data) := by
    apply String.ext
    rw [append_slash_data]
    rfl
  rw [h2, posixNormalize_canon_slashes s h 2, posixNormalize_canon s h,
    if_neg (canonAbs_ne_root s h)]

/-- `normalizePath` (with the default base) is idempotent: the shared helper
behind the spec's idempotence property. -/
theorem normalizePath_idem (p : Option String) :
    normalizePath (normalizePath p none) none = normalizePath p none := by
  cases h : normalizePath p none with
  | none => exact normalizePath_none_none
  | some s => exact normalizePath_canon_self s (normalizePath_none_canon p s h)

/-! ### Export/registration commutation lemmas -/

theorem perm_snoc_middle {α : Type} (a c : List α) (x : α) :
    List.Perm ((a ++ [x]) ++ c) ((a ++ c) ++ [x]) := by
  rw [List.append_assoc, List.append_assoc]
  exact List.Perm.append_left a List.perm_append_comm

theorem normalizePath_key_self (pOpt : Option String) (key : String)
    (h : normalizePath pOpt none = some key) : normalizePath (some key) none = some key :=
  normalizePath_canon_self key (normalizePath_none_canon pOpt key h)

theorem exportAllHandlers_addOwn (c : ApiNode) (m : String) (prm : HandlerParams)
    (hfresh : getKey c.handlers m = none) :
    List.Perm (exportAllHandlers (addOwnHandler c m prm).1)
      (exportAllHandlers c ++ (addOwnHandler c m prm).2) := by
  cases c with
  | mk p hs cs b a =>
    simp only [ApiNode.handlers] at hfresh
    simp only [addOwnHandler, exportAllHandlers]
    rw [setKey_of_getKey_none hs m prm hfresh]
    rw [List.map_append]
    simp only [List.map_cons, List.map_nil]
    exact perm_snoc_middle _ _ _

theorem exportChildren_append (p : Option String) (l₁ l₂ : List (String × ApiNode)) :
    exportChildren p (l₁ ++ l₂) = exportChildren p l₁ ++ exportChildren p l₂ := by
  induction l₁ with
  | nil => simp [exportChildren]
  | cons e rest ih =>
    obtain ⟨k, c⟩ := e
    simp [exportChildren, ih]

theorem exportChildren_update (p : Option String) (cs : List (String × ApiNode))
    (key : String) (c c' : ApiNode) (extra : List Reg)
    (hget : getKey cs key = some c)
    (hperm : List.Perm (exportAllHandlers c') (exportAllHandlers c ++ extra)) :
    List.Perm (exportChildren p (setKey cs key c'))
      (exportChildren p cs ++ extra.map (prefixReg p)) := by
  induction cs with
  | nil => simp [getKey] at hget
  | cons e rest ih =>
    obtain ⟨k0, x0⟩ := e
    by_cases hk : k0 = key
    · rw [getKey, if_pos hk] at hget
      have hx0 : x0 = c := by
        simpa using hget
      subst hx0
      simp only [setKey, if_pos hk, exportChildren]
      have hm : List.Perm ((exportAllHandlers c').map (prefixReg p))
          ((exportAllHandlers x0).map (prefixReg p) ++ extra.map (prefixReg p)) := by
        rw [← List.map_append]
        exact hperm.map (prefixReg p)
      calc (exportAllHandlers c').map (prefixReg p) ++ exportChildren p rest
          ≈ ((exportAllHandlers x0).map (prefixReg p) ++ extra.map (prefixReg p))
              ++ exportChildren p rest := hm.append_right _
        _ ≈ ((exportAllHandlers x0).map (prefixReg p) ++ exportChildren p rest)
              ++ extra.map (prefixReg p) := by
            rw [List.append_assoc, List.append_assoc]
            exact List.Perm.append_left _ List.perm_append_comm
    · rw [getKey, if_neg hk] at hget
      simp only [setKey, if_neg hk, exportChildren]
      rw [List.append_assoc]
      exact List.Perm.append_left _ (ih hget)

theorem exportAllHandlers_addHandler (n : ApiNode) (op : Op)
    (hfresh : freshIn n (opKey op) = true) :
    List.Perm (exportAllHandlers (addHandler n op.method op.path op.prm).1)
      (exportAllHandlers n ++ (addHandler n op.method op.path op.prm).2) := by
  rw [opKey] at hfresh
  cases hnp : normalizePath op.path none with
  | none =>
    rw [hnp] at hfresh
    simp only [freshIn, Option.isNone_iff_eq_none] at hfresh
    simp only [addHandler, hnp]
    exact exportAllHandlers_addOwn n op.method op.prm hfresh
  | some key =>
    rw [hnp] at hfresh
    cases n with
    | mk p hs cs b a =>
      simp only [addHandler, hnp]
      cases hget : getKey cs key with
      | some c =>
        simp only [freshIn, ApiNode.children, hget, Option.isNone_iff_eq_none] at hfresh
        simp only [hget]
        have hup := exportChildren_update p cs key c (addOwnHandler c op.method op.prm).1
          (addOwnHandler c op.method op.prm).2 hget
          (exportAllHandlers_addOwn c op.method op.prm hfresh)
        simp only [exportAllHandlers]
        calc hs.map (fun e => Reg.mk e.1 (normalizePath none p) e.2.handler)
              ++ exportChildren p (setKey cs key (addOwnHandler c op.method op.prm).1)
            ≈ hs.map (fun e => Reg.mk e.1 (normalizePath none p) e.2.handler)
              ++ (exportChildren p cs
                  ++ (addOwnHandler c op.method op.prm).2.map (prefixReg p)) :=
              List.Perm.append_left _ hup
          _ = (hs.map (fun e => Reg.mk e.1 (normalizePath none p) e.2.handler)
              ++ exportChildren p cs)
              ++ (addOwnHandler c op.method op.prm).2.map (prefixReg p) := by
              rw [List.append_assoc]
      | none =>
        simp only [hget]
        have hkey : normalizePath (some key) none = some key := normalizePath_key_self _ _ hnp
        simp only [ApiNode.path, hkey, pathKey]
        rw [setKey_of_getKey_none cs key _ hget]
        simp only [exportAllHandlers, exportChildren_append, addOwnHandler, setKey,
          exportChildren, List.map_cons, List.map_nil]
        simp only [List.append_nil, ← List.append_assoc]
        exact List.Perm.refl _

theorem freshIn_addHandler (n : ApiNode) (op : Op) (K : String × Option String)
    (hK : freshIn n K = true) (hne : K ≠ opKey op) :
    freshIn (addHandler n op.method op.path op.prm).1 K = true := by
  obtain ⟨m', pk'⟩ := K
  rw [opKey] at hne
  cases hnp : normalizePath op.path none with
  | none =>
    rw [hnp] at hne
    cases n with
    | mk p hs cs b a =>
      simp only [addHandler, hnp, addOwnHandler]
      cases pk' with
      | none =>
        have hm : m' ≠ op.method := fun hcon => hne (by rw [hcon])
        simp only [freshIn, ApiNode.handlers] at hK ⊢
        rw [getKey_setKey_other hs op.method m' op.prm (fun hcon => hm hcon.symm)]
        exact hK
      | some k' =>
        simp only [freshIn, ApiNode.children] at hK ⊢
        exact hK
  | some key =>
    rw [hnp] at hne
    cases n with
    | mk p hs cs b a =>
      simp only [addHandler, hnp]
      cases hget : getKey cs key with
      | some c =>
        simp only [hget]
        cases pk' with
        | none =>
          simp only [freshIn, ApiNode.handlers] at hK ⊢
          exact hK
        | some k' =>
          by_cases hkk : k' = key
          · subst hkk
            have hm : m' ≠ op.method := fun hcon => hne (by rw [hcon])
            cases c with
            | mk cp chs ccs cb ca =>
              simp only [freshIn, ApiNode.children, hget, ApiNode.handlers,
                Option.isNone_iff_eq_none] at hK
              simp only [freshIn, ApiNode.children]
              rw [getKey_setKey_same]
              simp only [addOwnHandler, ApiNode.handlers, Option.isNone_iff_eq_none]
              rw [getKey_setKey_other _ op.method m' op.prm (Ne.symm hm)]
              exact hK
          · simp only [freshIn, ApiNode.children] at hK ⊢
            rw [getKey_setKey_other cs key k' _ (fun hcon => hkk hcon.symm)]
            exact hK
      | none =>
        simp only [hget]
        have hkey : normalizePath (some key) none = some key := normalizePath_key_self _ _ hnp
        simp only [ApiNode.path, hkey, pathKey]
        cases pk' with
        | none =>
          simp only [freshIn, ApiNode.handlers] at hK ⊢
          exact hK
        | some k' =>
          by_cases hkk : k' = key
          · subst hkk
            have hm : m' ≠ op.method := fun hcon => hne (by rw [hcon])
            simp only [freshIn, ApiNode.children]
            rw [getKey_setKey_same]
            simp only [addOwnHandler, setKey, ApiNode.handlers, getKey]
            rw [if_neg (Ne.symm hm)]
            rfl
          · simp only [freshIn, ApiNode.children] at hK ⊢
            rw [getKey_setKey_other cs key k' _ (fun hcon => hkk hcon.symm)]
            exact hK

theorem applyOps_perm (t : ApiNode) (ops : List Op)
    (hdist : List.Pairwise (fun o₁ o₂ => opKey o₁ ≠ opKey o₂) ops)
    (hfresh : ∀ op ∈ ops, freshIn t (opKey op) = true) :
    List.Perm (exportAllHandlers (applyOps t ops).1)
      (exportAllHandlers t ++ (applyOps t ops).2) := by
  induction ops generalizing t with
  | nil => simp [applyOps]
  | cons op rest ih =>
    rw [List.pairwise_cons] at hdist
    simp only [applyOps]
    have h1 := exportAllHandlers_addHandler t op (hfresh op (by simp))
    have hfresh' : ∀ o ∈ rest,
        freshIn (addHandler t op.method op.path op.prm).1 (opKey o) = true :=
      fun o ho => freshIn_addHandler t op (opKey o)
        (hfresh o (List.mem_cons_of_mem op ho)) (fun hcon => hdist.1 o ho hcon.symm)
    have h2 := ih (addHandler t op.method op.path op.prm).1 hdist.2 hfresh'
    calc exportAllHandlers (applyOps (addHandler t op.method op.path op.prm).1 rest).1
        ≈ exportAllHandlers (addHandler t op.method op.path op.prm).1
            ++ (applyOps (addHandler t op.method op.path op.prm).1 rest).2 := h2
      _ ≈ (exportAllHandlers t ++ (addHandler t op.method op.path op.prm).2)
            ++ (applyOps (addHandler t op.method op.path op.prm).1 rest).2 :=
          h1.append_right _
      _ = exportAllHandlers t ++ ((addHandler t op.method op.path op.prm).2
            ++ (applyOps (addHandler t op.method op.path op.prm).1 rest).2) := by
          rw [List.append_assoc]

theorem lookupNode_updateNode_other (sys : Sys) (i j : Nat) (f : NodeData → NodeData)
    (h : i ≠ j) : lookupNode (updateNode sys i f) j = lookupNode sys j := by
  rw [lookupNode, lookupNode, updateNode]
  cases hg : getKey sys.nodes i with
  | none => rfl
  | some nd => exact getKey_setKey_other sys.nodes i j (f nd) h

theorem lookupNode_updateNode_same (sys : Sys) (i : Nat) (f : NodeData → NodeData)
    (nd : NodeData) (h : lookupNode sys i = some nd) :
    lookupNode (updateNode sys i f) i = some (f nd) := by
  rw [lookupNode] at h
  rw [lookupNode, updateNode, h]
  exact getKey_setKey_same sys.nodes i (f nd)

/-! ### Orchestrator lemmas -/

theorem results_failed_mk (f p : List Summary) :
    ({ failed := f, passed := p } : Results).failed = f := rfl

theorem results_passed_mk (f p : List Summary) :
    ({ failed := f, passed := p } : Results).passed = p := rfl

theorem testHandlerExample_count (task : TestTask) (out : TOutcome)
    (h : (testHandlerExample task out).1 = none) :
    (testHandlerExample task out).2.failed.length
      + (testHandlerExample task out).2.passed.length = 1 := by
  simp only [testHandlerExample] at h ⊢
  by_cases h1 : (!(task.baseUrl.protocol == "https:" || task.baseUrl.protocol == "http:")) = true
  · rw [if_pos h1] at h
    exact absurd h (by simp)
  · rw [if_neg h1] at h ⊢
    by_cases h2 : (!hookIsFn task.before) = true
    · rw [if_pos h2] at h
      exact absurd h (by simp)
    · rw [if_neg h2] at h ⊢
      by_cases h3 : (!hookIsFn task.after) = true
      · rw [if_pos h3] at h
        exact absurd h (by simp)
      · rw [if_neg h3] at h ⊢
        by_cases h4 : ((normalizePath task.nodePath task.baseUrl.pathname).isNone
            && !(task.ex.request.getD {}).urlParameters.isEmpty) = true
        · rw [if_pos h4] at h
          exact absurd h (by simp)
        · rw [if_neg h4] at h ⊢
          cases hb : hookErr task.before with
          | some e =>
            simp only [hb] at h
            exact absurd h (by simp)
          | none =>
            simp only [hb] at h ⊢
            cases out with
            | netError msg => simp
            | response r body =>
              dsimp only
              split <;> simp

theorem runNextTest_count (pick : Nat → Nat) (fuel : Nat) :
    ∀ (tests : List (TestTask × TOutcome)), tests.length ≤ fuel →
    ∀ (step : Nat) (acc : Results),
    (runNextTest pick fuel step tests acc).1 = none →
    (runNextTest pick fuel step tests acc).2.failed.length
      + (runNextTest pick fuel step tests acc).2.passed.length
      = acc.failed.length + acc.passed.length + tests.length := by
  induction fuel with
  | zero =>
    intro tests hlen step acc hnone
    rw [List.length_eq_zero.mp (Nat.le_zero.mp hlen)]
    simp [runNextTest]
  | succ fuel ih =>
    intro tests hlen step acc hnone
    cases tests with
    | nil => simp [runNextTest]
    | cons t0 trest =>
      rw [runNextTest] at hnone ⊢
      have hi : pick step % (t0 :: trest).length < (t0 :: trest).length :=
        Nat.mod_lt _ (Nat.succ_pos _)
      cases hr : (testHandlerExample
          ((t0 :: trest).get ⟨pick step % (t0 :: trest).length, hi⟩).1
          ((t0 :: trest).get ⟨pick step % (t0 :: trest).length, hi⟩).2).1 with
      | some e =>
        simp only [hr] at hnone
        exact absurd hnone (by simp)
      | none =>
        simp only [hr] at hnone ⊢
        have hrest : ((t0 :: trest).eraseIdx (pick step % (t0 :: trest).length)).length
            = (t0 :: trest).length - 1 :=
          List.length_eraseIdx_of_lt hi
        have hle : ((t0 :: trest).eraseIdx (pick step % (t0 :: trest).length)).length ≤ fuel := by
          rw [hrest]
          simp only [List.length_cons] at hlen ⊢
          omega
        have := ih ((t0 :: trest).eraseIdx (pick step % (t0 :: trest).length)) hle (step + 1)
          { failed := acc.failed ++ (testHandlerExample
              ((t0 :: trest).get ⟨pick step % (t0 :: trest).length, hi⟩).1
              ((t0 :: trest).get ⟨pick step % (t0 :: trest).length, hi⟩).2).2.failed,
            passed := acc.passed ++ (testHandlerExample
              ((t0 :: trest).get ⟨pick step % (t0 :: trest).length, hi⟩).1
              ((t0 :: trest).get ⟨pick step % (t0 :: trest).length, hi⟩).2).2.passed }
          hnone
        rw [this, hrest]
        have hone := testHandlerExample_count
          ((t0 :: trest).get ⟨pick step % (t0 :: trest).length, hi⟩).1
          ((t0 :: trest).get ⟨pick step % (t0 :: trest).length, hi⟩).2 hr
        simp only [results_failed_mk, results_passed_mk, List.length_append,
          List.length_cons] at hone ⊢
        omega

theorem samePar_pvapp (s : Nat) (a : App) (x : PRef) : samePar (.pvapp s a) x = false := by
  cases x <;> rfl

/-! ## The claims -/

/-- C1: for every tree of resource nodes `t`, every handler set (`ops` with
pairwise-distinct, not-yet-taken (method, sub-path) slots) and every host
sink: populate-before-attach — building the tree first, so that attaching a
parent afterwards re-exports all of its (and its descendants') handlers via
`exportAllHandlers` (left side) — and attach-before-populate — starting from
the already-exported `t` and letting each `addHandler` export immediately
(right side) — hand the host the same multiset of (method, full path,
handler) registrations. -/
theorem c1_attach_populate_orderings_converge (t : ApiNode) (ops : List Op)
    (hdist : (ops.map opKey).Nodup)
    (hfresh : ∀ op ∈ ops, freshIn t (opKey op) = true) :
    List.Perm (exportAllHandlers (applyOps t ops).1)
      (exportAllHandlers t ++ (applyOps t ops).2) := by
  apply applyOps_perm
  · rw [List.Nodup, List.pairwise_map] at hdist
    exact hdist
  · exact hfresh

theorem c1_attach_populate_orderings_converge_witness :
    ((c1Ops.map opKey).Nodup ∧ ∀ op ∈ c1Ops, freshIn emptyNode (opKey op) = true) ∧
    List.Perm (exportAllHandlers (applyOps emptyNode c1Ops).1)
      (exportAllHandlers emptyNode ++ (applyOps emptyNode c1Ops).2) :=
  ⟨⟨by decide, by decide⟩,
    c1_attach_populate_orderings_converge emptyNode c1Ops (by decide) (by decide)⟩

/-- C2 (code bug): the runner's status check is
`response.statusCode !== (exampleResponse.status || 200)`; a function-valued
`status` is never invoked — a number is never strictly equal to a function —
so the example with predicate `s => s >= 200 && s < 300` is marked failed
even for an actual status of 201 where the predicate holds (the repository's
own test `Examples with validation functions instead of values` requires it
to pass). An actual 404 also fails, as the claim says, but for the same
wrong reason. -/
theorem c2_status_predicate_never_invoked :
    c2Predicate 201 = true ∧
    statusMismatch (some (.fn c2Predicate)) 201 = true ∧
    (testHandlerExample c2Task (.response { statusCode := 201 } "")).2.failed.length = 1 ∧
    (testHandlerExample c2Task (.response { statusCode := 201 } "")).2.passed.length = 0 ∧
    (testHandlerExample c2Task (.response { statusCode := 404 } "")).2.failed.length = 1 := by
  refine ⟨by decide, rfl, by decide, by decide, by decide⟩

/-- C3 (code bug): the header loop compares
`response[header.toLowerCase()] !== expectedHeaders[header]` — a property of
the response *object*, not of `response.headers`, and never invokes a
predicate expectation. With the actual headers carrying
`content-type: text/html` and the example expecting exactly that, the lookup
on the object yields `undefined` and the example is marked failed; predicate
expectations always mismatch. (The short-circuit on the first mismatch is
as the claim states; `headersOk` returns `false` without scanning on.) -/
theorem c3_header_lookup_wrong_object :
    getKey c3Response.headers "content-type" = some "text/html" ∧
    respProp c3Response "content-type" = none ∧
    (testHandlerExample c3Task (.response c3Response "")).2.failed.length = 1 ∧
    (testHandlerExample c3Task (.response c3Response "")).2.passed.length = 0 ∧
    (∀ (v : Option String) (p : Option String → Bool), headerMismatch v (.fn p) = true) := by
  refine ⟨by decide, by decide, by decide, by decide, fun v p => rfl⟩

/-- C4 (counterexample): with the parent mounted at `/api` and the base URL
`http://host:8080/api`, the child's request is issued against
`/api/api/users` — the node's own path is appended to the base pathname —
not `/api/users` as claimed. -/
theorem c4_counterexample_double_prefix :
    (exportAllTests c4Parent c4BaseWithApi).length = 1 ∧
    (exportAllTests c4Parent c4BaseWithApi).map requestOptionsPath
      = [some "/api/api/users"] ∧
    some "/api/api/users" ≠ some "/api/users" := by
  refine ⟨by decide, by decide, by decide⟩

/-- C4 amended: `test` appends the node's own path to the base URL, so the
parent of the claim's scenario is tested with base `http://host:8080`; the
child's single example is then issued against `http://host:8080/api/users`
(same host and port, request path `/api/users`) and it is counted in the
aggregated total (here: the single scheduled task, one passed result at
completion). -/
theorem c4_amended_nesting :
    (exportAllTests c4Parent c4BaseRoot).length = 1 ∧
    (exportAllTests c4Parent c4BaseRoot).map requestOptionsPath = [some "/api/users"] ∧
    (exportAllTests c4Parent c4BaseRoot).map (fun t => t.baseUrl.hostname) = ["host"] ∧
    (exportAllTests c4Parent c4BaseRoot).map (fun t => t.baseUrl.port) = [some "8080"] ∧
    (testRun c4Parent c4BaseRoot [c4Outcome] (fun _ => 0)).1 = none ∧
    (testRun c4Parent c4BaseRoot [c4Outcome] (fun _ => 0)).2.passed.length = 1 ∧
    (testRun c4Parent c4BaseRoot [c4Outcome] (fun _ => 0)).2.failed.length = 0 := by
  refine ⟨by decide, by decide, by decide, by decide, by decide, by decide, by decide⟩

/-- C5: for every tree shape, outcome assignment and scheduling order, when
the run reaches completion (the callback's error is `null`) the delivered
results satisfy `passed.length + failed.length = total`, where `total` is
the task count collected by `exportAllTests` at scheduling time — the
node's own (method, example) pairs plus the sum over all descendants. -/
theorem c5_completion_counts (nd : ApiNode) (u : UrlRec) (outs : List TOutcome)
    (pick : Nat → Nat)
    (hlen : outs.length = (exportAllTests nd u).length)
    (hdone : (testRun nd u outs pick).1 = none) :
    (testRun nd u outs pick).2.passed.length + (testRun nd u outs pick).2.failed.length
      = (exportAllTests nd u).length := by
  have hzip : ((exportAllTests nd u).zip outs).length = (exportAllTests nd u).length := by
    rw [List.length_zip, ← hlen, Nat.min_self]
  simp only [testRun] at hdone ⊢
  have := runNextTest_count pick ((exportAllTests nd u).zip outs).length
    ((exportAllTests nd u).zip outs) le_rfl 0 {} hdone
  simp only [results_failed_mk, results_passed_mk] at this
  rw [← hzip]
  simp only [List.length_nil] at this
  omega

theorem c5_completion_counts_witness :
    (([TOutcome.netError "refused"] : List TOutcome).length
        = (exportAllTests c5Node {}).length ∧
      (testRun c5Node {} [TOutcome.netError "refused"] (fun _ => 0)).1 = none) ∧
    (testRun c5Node {} [TOutcome.netError "refused"] (fun _ => 0)).2.passed.length
        + (testRun c5Node {} [TOutcome.netError "refused"] (fun _ => 0)).2.failed.length
      = (exportAllTests c5Node {}).length :=
  ⟨⟨by decide, by decide⟩,
    c5_completion_counts c5Node {} [TOutcome.netError "refused"] (fun _ => 0)
      (by decide) (by decide)⟩

/-- C6 (counterexample): an app exposing exactly `{get, post, put}` — which
the claim says the probe accepts — fails `isServerApp` (it requires `use` or
`handle`, and does not look at `put` at all), and assigning it as parent
leaves the node detached with `parent = null` and exports nothing. -/
theorem c6_counterexample_put_only_app :
    putOnlyApp.get = true ∧ putOnlyApp.post = true ∧ putOnlyApp.put = true ∧
    isServerApp putOnlyApp = false ∧
    lookupNode (setParentH 10 c6Sys 1 (.pvapp 0 putOnlyApp)).1 1
      = some { c6Node with parent := .pnone } ∧
    (setParentH 10 c6Sys 1 (.pvapp 0 putOnlyApp)).2 = [] := by
  refine ⟨rfl, rfl, rfl, rfl, by decide, by decide⟩

/-- C6 amended: the capability probe accepts an app iff it exposes `use` or
`handle` together with `get` and `post` (`put` is not probed); a node
assigned an accepted app gets the wrapped export sink as parent and
re-exports all handlers through it, while an app failing the probe (and not
a resource node) leaves the node detached with `parent = null` and exports
nothing. -/
theorem c6_amended_probe (fuel : Nat) (sys : Sys) (id s : Nat) (a : App) (nd : NodeData)
    (hlook : lookupNode sys id = some nd) :
    isServerApp a = ((a.use || a.handle) && a.get && a.post) ∧
    (isServerApp a = true →
      lookupNode (setParentH fuel sys id (.pvapp s a)).1 id
          = some { nd with parent := .psink s a } ∧
      (setParentH fuel sys id (.pvapp s a)).2
          = exportAllHandlersH (setParentH fuel sys id (.pvapp s a)).1 fuel id) ∧
    (isServerApp a = false →
      lookupNode (setParentH fuel sys id (.pvapp s a)).1 id
          = some { nd with parent := .pnone } ∧
      (setParentH fuel sys id (.pvapp s a)).2 = []) := by
  refine ⟨rfl, ?_, ?_⟩
  · intro happ
    simp only [setParentH, hlook, samePar_pvapp, Bool.false_eq_true, if_false, happ, if_true]
    refine ⟨lookupNode_updateNode_same sys id _ nd hlook, ?_⟩
    first
    | rfl
    | trivial
  · intro happ
    simp only [setParentH, hlook, samePar_pvapp, Bool.false_eq_true, if_false, happ]
    refine ⟨lookupNode_updateNode_same sys id _ nd hlook, ?_⟩
    first
    | rfl
    | trivial

theorem c6_amended_probe_witness :
    lookupNode c6Sys 1 = some c6Node ∧
    (isServerApp expressApp
        = ((expressApp.use || expressApp.handle) && expressApp.get && expressApp.post) ∧
      (isServerApp expressApp = true →
        lookupNode (setParentH 10 c6Sys 1 (.pvapp 0 expressApp)).1 1
            = some { c6Node with parent := .psink 0 expressApp } ∧
        (setParentH 10 c6Sys 1 (.pvapp 0 expressApp)).2
            = exportAllHandlersH (setParentH 10 c6Sys 1 (.pvapp 0 expressApp)).1 10 1) ∧
      (isServerApp expressApp = false →
        lookupNode (setParentH 10 c6Sys 1 (.pvapp 0 expressApp)).1 1
            = some { c6Node with parent := .pnone } ∧
        (setParentH 10 c6Sys 1 (.pvapp 0 expressApp)).2 = [])) :=
  ⟨by decide, c6_amended_probe 10 c6Sys 1 0 expressApp c6Node (by decide)⟩

/-- C7 (code bug): the exporter's alias branch is inverted — it maps `del`
to `delete` (`method === 'del' && ('delete' in app)`), a case the canonical
verb set never produces, instead of falling back from `delete` to `del`. On
a restify-like host that has `del` but no `delete` entry point, exporting a
`delete` handler invokes the missing `app['delete']` (`ok = false`, a
`TypeError` at registration time) even though the `del` alias exists; the
claim (and the `// Support restify.` comment plus the README's restify
support) require the fallback. -/
theorem c7_delete_alias_inverted :
    isServerApp restifyApp = true ∧
    restifyApp.del = true ∧ restifyApp.delete = false ∧
    hasVerb restifyApp "del" = true ∧
    handlerExporter 0 restifyApp "delete" (some "/x") 5
      = [{ sink := 0, method := "delete", path := some "/x", handler := 5, ok := false }] := by
  refine ⟨rfl, rfl, rfl, rfl, by decide⟩

/-- C9: the path normalizer is a total pure string function — for every
input string, and for the absent input, it yields a canonical path or
`none` — and it is idempotent: re-normalizing its own output returns that
output unchanged, `normalize(normalize(p)) == normalize(p)`. -/
theorem c9_normalizePath_idempotent (p : Option String) :
    normalizePath (normalizePath p none) none = normalizePath p none :=
  normalizePath_idem p

/-- C10 (counterexample): after re-assigning child `n`'s parent to a second
host sink, parent `p`'s heap entry (its children map included) is indeed
unchanged — but `p.exportAllHandlers()` now delivers `n`'s handler to the
*new* sink (id 1) with only `n`'s own path `/n`, not through `p`'s own chain
(sink 0 with the `/p/n` prefix) as the claim states: each node bubbles
through its *current* parent link. -/
theorem c10_counterexample_reexport_new_parent :
    lookupNode c10After 1 = lookupNode c10Sys 1 ∧
    exportAllHandlersH c10After 10 1
      = [{ sink := 1, method := "get", path := some "/n", handler := 7, ok := true }] ∧
    ({ sink := 0, method := "get", path := some "/p/n", handler := 7, ok := true } : HReg)
      ∉ exportAllHandlersH c10After 10 1 := by
  refine ⟨by decide, by decide, by decide⟩

/-- C10 amended: for every node `n` in the heap, assigning `n` a different
parent — another node other than `p`, a host sink, or an unsupported
value — leaves `p`'s node unchanged (in particular `p.children`, so `n`
stays registered under its path key there); `set parent` only touches `n`
itself and, for a node parent, that new parent's children map. -/
theorem c10_amended_old_parent_unchanged (fuel : Nat) (sys : Sys) (p n : Nat)
    (pv : ParentVal) (hpn : p ≠ n) (hq : ∀ q, pv = ParentVal.pvnode q → q ≠ p) :
    lookupNode (setParentH fuel sys n pv).1 p = lookupNode sys p := by
  cases hl : lookupNode sys n with
  | none => simp only [setParentH, hl]
  | some nd =>
    cases pv with
    | pvnode q =>
      simp only [setParentH, hl]
      by_cases hs : samePar (ParentVal.pvnode q) nd.parent = true
      · rw [if_pos hs]
      · rw [if_neg hs]
        rw [lookupNode_updateNode_other _ n p _ (Ne.symm hpn),
          lookupNode_updateNode_other _ q p _ (hq q rfl)]
    | pvapp s a =>
      simp only [setParentH, hl, samePar_pvapp, Bool.false_eq_true, if_false]
      by_cases happ : isServerApp a = true
      · rw [if_pos happ]
        exact lookupNode_updateNode_other _ n p _ (Ne.symm hpn)
      · rw [if_neg happ]
        exact lookupNode_updateNode_other _ n p _ (Ne.symm hpn)
    | pvnull =>
      simp only [setParentH, hl]
      by_cases hs : samePar ParentVal.pvnull nd.parent = true
      · rw [if_pos hs]
      · rw [if_neg hs]
        exact lookupNode_updateNode_other _ n p _ (Ne.symm hpn)
    | pvother =>
      simp only [setParentH, hl]
      by_cases hs : samePar ParentVal.pvother nd.parent = true
      · rw [if_pos hs]
      · rw [if_neg hs]
        exact lookupNode_updateNode_other _ n p _ (Ne.symm hpn)

theorem c10_amended_old_parent_unchanged_witness :
    ((1 : Nat) ≠ 2 ∧ ∀ q, (ParentVal.pvapp 1 expressApp) = ParentVal.pvnode q → q ≠ 1) ∧
    lookupNode (setParentH 10 c10Sys 2 (.pvapp 1 expressApp)).1 1 = lookupNode c10Sys 1 :=
  ⟨⟨by decide, fun q hq => by cases hq⟩,
    c10_amended_old_parent_unchanged 10 c10Sys 1 2 (.pvapp 1 expressApp)
      (by decide) (fun q hq => by cases hq)⟩

end Selfapi
